import Mathlib

/-!
Verification of the file split/combine utility (`utilities/split.py`).

Shallow embedding conventions:
* Python `str` values are modelled as `List Char` (a Python string is a
  sequence of code points); file contents (`bytes`) as `List Nat`.
* The file system visible to an operation is a partial map
  `List Char → Option (List Nat)` from file names to contents; the
  directory listing returned by `os.listdir` is a `List (List Char)`.
* Each operation returns the files it wrote together with an exit code:
  `none` means the script ran to completion (exit 0), `some 1` means it
  called `sys.exit(1)` (or died on an uncaught I/O error).
* `ceil(filesize / parts)` is modelled by exact ceiling division on `Nat`
  (Python evaluates it through float division, which agrees with the exact
  value for all file sizes below 2^53); `float` literals in `parse_size`
  are modelled as exact rationals, which agrees with Python on every input
  whose scaled value is exactly representable.
* `str.upper`, `str.strip`, the regex class `\d` and `int(...)` are
  modelled on their ASCII behaviour, which is what the part-name pattern
  and the documented size strings exercise.
-/

abbrev Bytes := List Nat
abbrev Str := List Char

/-! ## Decimal numerals

`split_file` builds part names with the f-string `f"{filename}.part{i+1}"`
and `combine_file` parses the index back with `int(...)` on the digits
captured by the pattern.  `natDecimal` renders a number the way Python's
f-string does (decimal, no padding, no sign); `digitsVal` is `int` on a
string of ASCII digits. -/

/-- Numeric value of an ASCII digit character. -/
def digitVal (c : Char) : Nat := c.toNat - 48

/-- The ASCII digit character for a value `d < 10`. -/
def digitChar10 (d : Nat) : Char := Char.ofNat (48 + d)

/-- `int(ds)` on a nonempty string of ASCII digits. -/
def digitsVal (ds : Str) : Nat := ds.foldl (fun a c => 10 * a + digitVal c) 0

/-- Decimal digits of `n` (empty for `0`), most significant first.
The first argument is fuel; `n` itself is always enough fuel. -/
def decimalAux : Nat → Nat → Str
  | 0, _ => []
  | fuel + 1, n =>
    if n = 0 then [] else decimalAux fuel (n / 10) ++ [digitChar10 (n % 10)]

/-- Decimal rendering of `n`, as Python's `f"{n}"` produces it. -/
def natDecimal (n : Nat) : Str := if n = 0 then ['0'] else decimalAux n n

/-! ## Splitter -/

/-- `ceil(a / b)` on naturals (`ceil(filesize / parts)` in the source). -/
def ceilDiv (a b : Nat) : Nat := (a + b - 1) / b

/-- The literal characters `".part"` used both by the name f-string and by
the combine pattern. -/
def partSuffix : Str := ['.', 'p', 'a', 'r', 't']

/-- `f"{filename}.part{i}"`. -/
def partName (filename : Str) (i : Nat) : Str :=
  filename ++ partSuffix ++ natDecimal i

/-- The write loop of `split_file`: `for i in range(parts)`, read up to
`part_size` bytes from the current cursor position and write them to
`f"{filename}.part{i+1}"`.  Arguments: remaining data at the cursor,
`part_size`, the current loop index, and the number of iterations left.
Returns the `(name, contents)` pairs written, in order. -/
def splitLoop (filename : Str) : Bytes → Nat → Nat → Nat → List (Str × Bytes)
  | _, _, _, 0 => []
  | data, sz, i, n + 1 =>
    (partName filename (i + 1), data.take sz) ::
      splitLoop filename (data.drop sz) sz (i + 1) n

/-- `split_file(filename, max_size=None, parts=None)`.

Returns the part files written (in creation order) and the exit code.
The strategy dispatch mirrors the source's truthiness tests: `if parts:`
treats both `None` and `0` as absent, then `elif max_size:` likewise,
and otherwise the script prints the missing-configuration error and
exits 1.  A missing source file exits 1 before anything is written. -/
def split_file (fs : Str → Option Bytes) (filename : Str)
    (max_size parts : Option Nat) : List (Str × Bytes) × Option Nat :=
  match fs filename with
  | none => ([], some 1)
  | some data =>
    match parts with
    | some (p + 1) =>
      (splitLoop filename data (ceilDiv data.length (p + 1)) 0 (p + 1), none)
    | _ =>
      match max_size with
      | some (m + 1) =>
        (splitLoop filename data (m + 1) 0 (ceilDiv data.length (m + 1)), none)
      | _ => ([], some 1)

/-! ## Combiner -/

/-- The anchored pattern `^<base>\.part(\d+)$` (with `base` escaped, hence
matched literally): returns the parsed numeric index when `name` matches.
The captured group is one or more ASCII digits, so the `int()` conversion
it feeds cannot fail. -/
def partPattern (base name : Str) : Option Nat :=
  let pre := base ++ partSuffix
  if pre.isPrefixOf name then
    let ds := name.drop pre.length
    if ds ≠ [] ∧ ds.all Char.isDigit then some (digitsVal ds) else none
  else none

/-- The match-collection loop of `combine_file`: keep, in listing order,
each entry matching the part pattern as a `(parsed index, filename)` pair. -/
def combineMatches (entries : List Str) (base : Str) : List (Nat × Str) :=
  entries.filterMap (fun f => (partPattern base f).map (fun idx => (idx, f)))

/-- Python's comparison on the `(idx, filename)` tuples that
`matches.sort()` orders: lexicographic — numeric on the index, then
code-point lexicographic on the filename. -/
def pairLe (a b : Nat × Str) : Prop :=
  a.1 < b.1 ∨ (a.1 = b.1 ∧ a.2 ≤ b.2)

instance : DecidableRel pairLe := fun a b => by unfold pairLe; infer_instance

instance : IsTotal (Nat × Str) pairLe :=
  ⟨by
    intro a b
    rcases Nat.lt_trichotomy a.1 b.1 with h | h | h
    · exact Or.inl (Or.inl h)
    · rcases le_total a.2 b.2 with h2 | h2
      · exact Or.inl (Or.inr ⟨h, h2⟩)
      · exact Or.inr (Or.inr ⟨h.symm, h2⟩)
    · exact Or.inr (Or.inl h)⟩

instance : IsTrans (Nat × Str) pairLe :=
  ⟨by
    intro a b c hab hbc
    rcases hab with h1 | ⟨h1, h1'⟩ <;> rcases hbc with h2 | ⟨h2, h2'⟩
    · exact Or.inl (h1.trans h2)
    · exact Or.inl (h2 ▸ h1)
    · exact Or.inl (h1 ▸ h2)
    · exact Or.inr ⟨h1.trans h2, h1'.trans h2'⟩⟩

instance : IsAntisymm (Nat × Str) pairLe :=
  ⟨by
    intro a b hab hba
    rcases hab with h1 | ⟨h1, h1'⟩ <;> rcases hba with h2 | ⟨h2, h2'⟩
    · exact absurd h2 (Nat.lt_asymm h1)
    · exact absurd h1 (h2 ▸ lt_irrefl _)
    · exact absurd h2 (h1 ▸ lt_irrefl _)
    · exact Prod.ext h1 (le_antisymm h1' h2')⟩

/-- The concatenation loop of `combine_file`: read each part in order and
append its contents to the output.  Returns the bytes written to the
output file and whether every part could be opened; a part that cannot be
opened aborts the loop, leaving the output partially written and making
the process die with a nonzero exit. -/
def readParts (fs : Str → Option Bytes) : List (Nat × Str) → Bytes × Bool
  | [] => ([], true)
  | m :: rest =>
    match fs m.2 with
    | none => ([], false)
    | some d =>
      let r := readParts fs rest
      (d ++ r.1, r.2)

/-- `combine_file(base_filename)`, after the path has been separated into
the directory's listing `entries` (with contents given by `fs`) and the
base name `base`.

Returns the contents of the output file (`none` when the output was never
opened — the no-parts check happens before `open(output_filename, "wb")`)
and the exit code. -/
def combine_file (fs : Str → Option Bytes) (entries : List Str) (base : Str) :
    Option Bytes × Option Nat :=
  let ms := combineMatches entries base
  if ms = [] then (none, some 1)
  else
    let sorted := List.insertionSort pairLe ms
    let r := readParts fs sorted
    (some r.1, if r.2 then none else some 1)

/-- The file system consisting of exactly the files written by a split:
looks a name up among the `(name, contents)` pairs. -/
def fsOfWrites (ws : List (Str × Bytes)) : Str → Option Bytes :=
  fun name => (ws.find? (fun w => w.1 == name)).map (fun w => w.2)

/-! ## Size-string parsing -/

/-- ASCII `str.upper` on one character. -/
def asciiUpper (c : Char) : Char :=
  if 'a' ≤ c ∧ c ≤ 'z' then Char.ofNat (c.toNat - 32) else c

/-- `str.strip()`: remove leading and trailing whitespace. -/
def pyStrip (s : Str) : Str :=
  ((s.dropWhile Char.isWhitespace).reverse.dropWhile Char.isWhitespace).reverse

/-- `float(s)` on the plain decimal literals the tool accepts
(`digits`, `digits.digits`, `.digits`, `digits.`), as an exact value
`numerator / 10 ^ exponent`; `none` models `ValueError`.  Signs,
exponents and the special float spellings are not exercised by any
documented size string and are not modelled. -/
def parseDecimal (s : Str) : Option (Nat × Nat) :=
  match s.span Char.isDigit with
  | (a, []) => if a ≠ [] then some (digitsVal a, 0) else none
  | (a, '.' :: b) =>
    if (a ≠ [] ∨ b ≠ []) ∧ b.all Char.isDigit then
      some (digitsVal a * 10 ^ b.length + digitsVal b, b.length)
    else none
  | _ => none

/-- `parse_size(size_str)`: strip and upper-case the string, scale by the
power of 1024 selected by a trailing `K`/`M`/`G`, and truncate the result
to an integer (`int(float(...) * scale)`; the value is nonnegative, so
truncation is floor division).  Without a suffix the string must be an
integer literal (`int(size_str)`).  `none` models a `ValueError`. -/
def parse_size (s : Str) : Option Nat :=
  let t := (pyStrip s).map asciiUpper
  match t.getLast? with
  | some 'K' => (parseDecimal t.dropLast).map (fun v => v.1 * 1024 / 10 ^ v.2)
  | some 'M' => (parseDecimal t.dropLast).map (fun v => v.1 * 1024 ^ 2 / 10 ^ v.2)
  | some 'G' => (parseDecimal t.dropLast).map (fun v => v.1 * 1024 ^ 3 / 10 ^ v.2)
  | _ => if t ≠ [] ∧ t.all Char.isDigit then some (digitsVal t) else none

/-! ## Helper lemmas: decimal numerals -/

theorem digitVal_digitChar10 {d : Nat} (h : d < 10) :
    digitVal (digitChar10 d) = d := by
  interval_cases d <;> decide

theorem isDigit_digitChar10 {d : Nat} (h : d < 10) :
    (digitChar10 d).isDigit = true := by
  interval_cases d <;> decide

theorem digitsVal_append_digit (l : Str) (c : Char) :
    digitsVal (l ++ [c]) = 10 * digitsVal l + digitVal c := by
  simp [digitsVal, List.foldl_append]

theorem decimalAux_zero (fuel : Nat) : decimalAux fuel 0 = [] := by
  cases fuel <;> rfl

theorem digitsVal_decimalAux :
    ∀ fuel n, n ≤ fuel → digitsVal (decimalAux fuel n) = n := by
  intro fuel
  induction fuel with
  | zero =>
    intro n hn
    have : n = 0 := Nat.le_zero.mp hn
    subst this
    rfl
  | succ f ih =>
    intro n hn
    by_cases h : n = 0
    · subst h
      rw [decimalAux_zero]
      rfl
    · have hdiv : n / 10 < n := Nat.div_lt_self (Nat.pos_of_ne_zero h) (by norm_num)
      have hmod : n % 10 < 10 := Nat.mod_lt n (by norm_num)
      unfold decimalAux
      rw [if_neg h, digitsVal_append_digit, ih (n / 10) (by omega),
        digitVal_digitChar10 hmod]
      omega

theorem all_digits_decimalAux :
    ∀ fuel n, ∀ c ∈ decimalAux fuel n, c.isDigit = true := by
  intro fuel
  induction fuel with
  | zero => intro n c hc; simp [decimalAux] at hc
  | succ f ih =>
    intro n c hc
    by_cases h : n = 0
    · subst h; rw [decimalAux_zero] at hc; simp at hc
    · unfold decimalAux at hc
      rw [if_neg h, List.mem_append] at hc
      rcases hc with hc | hc
      · exact ih _ c hc
      · have hmod : n % 10 < 10 := Nat.mod_lt n (by norm_num)
        simp at hc
        subst hc
        exact isDigit_digitChar10 hmod

theorem natDecimal_ne_nil (n : Nat) : natDecimal n ≠ [] := by
  cases n with
  | zero => decide
  | succ k =>
    show decimalAux (k + 1) (k + 1) ≠ []
    unfold decimalAux
    rw [if_neg (Nat.succ_ne_zero k)]
    simp

theorem digitsVal_natDecimal (n : Nat) : digitsVal (natDecimal n) = n := by
  cases n with
  | zero => rfl
  | succ k =>
    show digitsVal (decimalAux (k + 1) (k + 1)) = k + 1
    exact digitsVal_decimalAux (k + 1) (k + 1) le_rfl

theorem natDecimal_all_digits (n : Nat) :
    ∀ c ∈ natDecimal n, c.isDigit = true := by
  cases n with
  | zero => intro c hc; simp [natDecimal] at hc; subst hc; decide
  | succ k =>
    intro c hc
    exact all_digits_decimalAux (k + 1) (k + 1) c hc

theorem natDecimal_inj {a b : Nat} (h : natDecimal a = natDecimal b) : a = b := by
  have := congrArg digitsVal h
  rwa [digitsVal_natDecimal, digitsVal_natDecimal] at this

/-! ## Helper lemmas: part names and the part pattern -/

theorem partName_inj {f : Str} {a b : Nat} (h : partName f a = partName f b) :
    a = b :=
  natDecimal_inj (List.append_cancel_left h)

theorem partPattern_partName (base : Str) (i : Nat) :
    partPattern base (partName base i) = some i := by
  have hpre :
      (base ++ partSuffix).isPrefixOf (base ++ partSuffix ++ natDecimal i) = true :=
    List.isPrefixOf_iff_prefix.mpr (List.prefix_append _ _)
  simp only [partPattern, partName]
  rw [if_pos hpre, List.drop_left,
    if_pos ⟨natDecimal_ne_nil i, List.all_eq_true.mpr (natDecimal_all_digits i)⟩,
    digitsVal_natDecimal]

/-! ## Helper lemmas: ceiling division -/

theorem le_ceilDiv_mul (a b : Nat) (hb : 0 < b) : a ≤ ceilDiv a b * b := by
  unfold ceilDiv
  have h2 := Nat.div_add_mod (a + b - 1) b
  have h3 : (a + b - 1) % b < b := Nat.mod_lt _ hb
  have e1 : b * ((a + b - 1) / b) = a + b - 1 - (a + b - 1) % b :=
    Nat.eq_sub_of_add_eq h2
  calc a ≤ a + b - 1 - (a + b - 1) % b := by omega
    _ = b * ((a + b - 1) / b) := e1.symm
    _ = (a + b - 1) / b * b := Nat.mul_comm _ _

theorem ceilDiv_pos {a b : Nat} (ha : 0 < a) (hb : 0 < b) : 0 < ceilDiv a b := by
  unfold ceilDiv
  exact (Nat.le_div_iff_mul_le hb).mpr (by omega)

/-! ## Helper lemmas: the split loop -/

theorem splitLoop_eq (filename : Str) :
    ∀ (n : Nat) (data : Bytes) (sz i : Nat),
      splitLoop filename data sz i n =
        (List.range n).map
          (fun j => (partName filename (i + j + 1), (data.drop (j * sz)).take sz)) := by
  intro n
  induction n with
  | zero => intro data sz i; rfl
  | succ k ih =>
    intro data sz i
    show (partName filename (i + 1), data.take sz) ::
        splitLoop filename (data.drop sz) sz (i + 1) k = _
    rw [List.range_succ_eq_map, List.map_cons, List.map_map, ih]
    have hf :
        ((fun j => (partName filename (i + j + 1), (data.drop (j * sz)).take sz)) ∘
            Nat.succ) =
          fun j =>
            (partName filename (i + 1 + j + 1), ((data.drop sz).drop (j * sz)).take sz) := by
      funext j
      simp only [Function.comp_apply, List.drop_drop]
      have h1 : i + (j + 1) + 1 = i + 1 + j + 1 := by omega
      have h2 : Nat.succ j * sz = sz + j * sz := by
        rw [Nat.succ_mul]; omega
      rw [h1, h2]
    rw [hf]
    simp

theorem flatten_chunks (data : Bytes) (sz : Nat) :
    ∀ n, ((List.range n).map (fun j => (data.drop (j * sz)).take sz)).flatten =
      data.take (n * sz) := by
  intro n
  induction n with
  | zero => simp
  | succ k ih =>
    rw [List.range_succ, List.map_append, List.flatten_append, ih]
    simp only [List.map_cons, List.map_nil, List.flatten_cons, List.flatten_nil,
      List.append_nil]
    rw [Nat.succ_mul, List.take_add]

/-! ## Helper lemmas: the combine loop -/

theorem filterMap_all_some {α β : Type} (f : α → Option β) (g : α → β) :
    ∀ l : List α, (∀ a ∈ l, f a = some (g a)) → l.filterMap f = l.map g := by
  intro l
  induction l with
  | nil => intro _; rfl
  | cons x xs ih =>
    intro h
    rw [List.filterMap_cons, h x (List.mem_cons_self x xs), List.map_cons,
      ih (fun a ha => h a (List.mem_cons_of_mem x ha))]

theorem fsOfWrites_cons (w : Str × Bytes) (ws : List (Str × Bytes)) (name : Str) :
    fsOfWrites (w :: ws) name =
      if w.1 == name then some w.2 else fsOfWrites ws name := by
  by_cases h : (w.1 == name) = true
  · simp [fsOfWrites, List.find?_cons_of_pos _ h, h]
  · simp [fsOfWrites, List.find?_cons_of_neg _ h, h]

theorem fsOfWrites_range :
    ∀ (n : Nat) (nm : Nat → Str) (ch : Nat → Bytes),
      (∀ a b, nm a = nm b → a = b) →
      ∀ j, j < n →
        fsOfWrites ((List.range n).map (fun i => (nm i, ch i))) (nm j) =
          some (ch j) := by
  intro n
  induction n with
  | zero => intro nm ch _ j hj; exact absurd hj (Nat.not_lt_zero j)
  | succ k ih =>
    intro nm ch hinj j hj
    rw [List.range_succ_eq_map, List.map_cons, List.map_map]
    have hcomp : ((fun i => (nm i, ch i)) ∘ Nat.succ) =
        fun i => (nm (i + 1), ch (i + 1)) := by
      funext i; rfl
    rw [hcomp, fsOfWrites_cons]
    cases j with
    | zero => rw [if_pos (beq_self_eq_true (nm 0))]
    | succ j' =>
      have hne : ((nm 0, ch 0).1 == nm (j' + 1)) = false :=
        beq_eq_false_iff_ne.mpr (fun he => Nat.succ_ne_zero j' (hinj _ _ he).symm)
      rw [if_neg (by simp [hne])]
      exact ih (fun i => nm (i + 1)) (fun i => ch (i + 1))
        (fun a b h => Nat.succ_injective (hinj (a + 1) (b + 1) h))
        j' (Nat.lt_of_succ_lt_succ hj)

theorem readParts_found (fs : Str → Option Bytes) :
    ∀ ms : List (Nat × Str), (∀ m ∈ ms, (fs m.2).isSome = true) →
      readParts fs ms = (((ms.map (fun m => (fs m.2).getD [])).flatten : Bytes), true) := by
  intro ms
  induction ms with
  | nil => intro _; rfl
  | cons m rest ih =>
    intro h
    obtain ⟨d, hd⟩ := Option.isSome_iff_exists.mp (h m (List.mem_cons_self _ _))
    simp only [readParts, hd, ih (fun a ha => h a (List.mem_cons_of_mem _ ha)),
      List.map_cons, List.flatten_cons, Option.getD_some]

theorem sorted_matches (nm : Nat → Str) (n : Nat) :
    List.Sorted pairLe ((List.range n).map (fun j => (j + 1, nm (j + 1)))) :=
  List.Pairwise.map _ (fun a b hab => Or.inl (by omega : a + 1 < b + 1))
    (List.pairwise_lt_range n)

theorem combineMatches_names (base : Str) (nm : Nat → Str) (n : Nat)
    (hpat : ∀ j, partPattern base (nm j) = some j) :
    combineMatches ((List.range n).map (fun j => nm (j + 1))) base =
      (List.range n).map (fun j => (j + 1, nm (j + 1))) := by
  unfold combineMatches
  rw [List.filterMap_map]
  exact filterMap_all_some _ _ _
    (fun j _ => by simp [Function.comp, hpat (j + 1)])

/-- Core split/combine round trip: after a split of `data` into `n` parts of
`sz` bytes each (last short), with `n ≥ 1` and `n * sz` covering the whole
file, combining in a directory holding exactly the written parts rebuilds
`data` and exits 0. -/
theorem split_combine_core (filename : Str) (data : Bytes) (sz n : Nat)
    (hn : 0 < n) (hfit : data.length ≤ n * sz) :
    combine_file (fsOfWrites (splitLoop filename data sz 0 n))
      ((splitLoop filename data sz 0 n).map (fun w => w.1)) filename =
      (some data, none) := by
  have hws : splitLoop filename data sz 0 n =
      (List.range n).map
        (fun j => (partName filename (j + 1), (data.drop (j * sz)).take sz)) := by
    rw [splitLoop_eq]
    exact List.map_congr_left (fun j _ => by rw [Nat.zero_add])
  rw [hws]
  have hentries :
      ((List.range n).map
            (fun j => (partName filename (j + 1), (data.drop (j * sz)).take sz))).map
          (fun w => w.1) =
        (List.range n).map (fun j => partName filename (j + 1)) := by
    rw [List.map_map]; rfl
  rw [hentries]
  have hms := combineMatches_names filename (partName filename) n
    (partPattern_partName filename)
  have hne : (List.range n).map (fun j => (j + 1, partName filename (j + 1))) ≠ [] := by
    apply List.ne_nil_of_length_pos
    simpa using hn
  have hlookup : ∀ j, j < n →
      fsOfWrites
          ((List.range n).map
            (fun j => (partName filename (j + 1), (data.drop (j * sz)).take sz)))
          (partName filename (j + 1)) =
        some ((data.drop (j * sz)).take sz) :=
    fun j hj =>
      fsOfWrites_range n (fun i => partName filename (i + 1))
        (fun i => (data.drop (i * sz)).take sz)
        (fun a b h => Nat.succ_injective (partName_inj h)) j hj
  have hall : ∀ m ∈ (List.range n).map (fun j => (j + 1, partName filename (j + 1))),
      ((fsOfWrites
            ((List.range n).map
              (fun j => (partName filename (j + 1), (data.drop (j * sz)).take sz))))
          m.2).isSome = true := by
    intro m hm
    rw [List.mem_map] at hm
    obtain ⟨j, hj, rfl⟩ := hm
    rw [List.mem_range] at hj
    rw [hlookup j hj]
    rfl
  simp only [combine_file]
  rw [hms, if_neg hne,
    List.Sorted.insertionSort_eq (sorted_matches (partName filename) n),
    readParts_found _ _ hall]
  have hbytes :
      (((List.range n).map (fun j => (j + 1, partName filename (j + 1)))).map
          (fun m =>
            ((fsOfWrites
                  ((List.range n).map
                    (fun j =>
                      (partName filename (j + 1), (data.drop (j * sz)).take sz))))
                m.2).getD [])).flatten = data := by
    rw [List.map_map,
      List.map_congr_left (fun j hj => by
        show ((fsOfWrites _) (partName filename (j + 1))).getD [] = _
        rw [hlookup j (List.mem_range.mp hj), Option.getD_some]),
      flatten_chunks]
    exact List.take_of_length_le hfit
  rw [hbytes]
  rfl

/-- Total length of the chunks of a split that covers the whole file. -/
theorem sum_chunk_lengths (data : Bytes) (sz n : Nat)
    (hfit : data.length ≤ n * sz) :
    ((List.range n).map (fun j => ((data.drop (j * sz)).take sz).length)).sum =
      data.length := by
  have h1 : (List.range n).map (fun j => ((data.drop (j * sz)).take sz).length) =
      List.map List.length ((List.range n).map (fun j => (data.drop (j * sz)).take sz)) := by
    rw [List.map_map]; rfl
  rw [h1, ← List.length_flatten, flatten_chunks, List.take_of_length_le hfit]

/-- C5: a nonexistent source file makes `split_file` exit 1 having written
nothing — the existence check precedes every write. -/
theorem split_missing_source (fs : Str → Option Bytes) (filename : Str)
    (max_size parts : Option Nat) (h : fs filename = none) :
    split_file fs filename max_size parts = ([], some 1) := by
  simp only [split_file, h]

theorem split_missing_source_witness :
    ((fun _ : Str => (none : Option Bytes)) "nonexistent.bin".data = none) ∧
    split_file (fun _ : Str => (none : Option Bytes)) "nonexistent.bin".data
      none (some 2) = ([], some 1) :=
  ⟨rfl, split_missing_source _ _ _ _ rfl⟩

/-- C7: an existing source but neither a parts count nor a max size makes
`split_file` report the missing configuration and exit 1, writing nothing. -/
theorem split_missing_config (fs : Str → Option Bytes) (filename : Str)
    (data : Bytes) (h : fs filename = some data) :
    split_file fs filename none none = ([], some 1) := by
  simp only [split_file, h]

theorem split_missing_config_witness :
    ((fun name : Str => if name = ['f'] then some ([0, 1] : Bytes) else none)
        ['f'] = some [0, 1]) ∧
    split_file
      (fun name : Str => if name = ['f'] then some ([0, 1] : Bytes) else none)
      ['f'] none none = ([], some 1) :=
  ⟨by decide, split_missing_config _ _ [0, 1] (by decide)⟩

/-- C9: `if parts:` treats `parts=0` exactly like an absent parts count, so
`split_file` with `parts=0` behaves as if only `max_size` had been given:
with no `max_size` it takes the missing-configuration error path, and the
division `ceil(filesize / parts)` is never evaluated with a zero divisor. -/
theorem split_parts_zero :
    (∀ (fs : Str → Option Bytes) (filename : Str) (max_size : Option Nat),
      split_file fs filename max_size (some 0) =
        split_file fs filename max_size none) ∧
    (∀ (fs : Str → Option Bytes) (filename : Str),
      split_file fs filename none (some 0) = ([], some 1)) := by
  constructor
  · intro fs filename max_size
    cases h : fs filename <;> simp only [split_file, h]
  · intro fs filename
    cases h : fs filename <;> simp only [split_file, h]

/-- C6: when no directory entry matches `<base>.part<digits>`,
`combine_file` exits 1 without ever opening the output file. -/
theorem combine_no_parts (fs : Str → Option Bytes) (entries : List Str)
    (base : Str) (h : ∀ e ∈ entries, partPattern base e = none) :
    combine_file fs entries base = (none, some 1) := by
  have hnil : combineMatches entries base = [] :=
    List.filterMap_eq_nil_iff.mpr (fun a ha => by rw [h a ha]; rfl)
  simp [combine_file, hnil]

theorem combine_no_parts_witness :
    (∀ e ∈ (["hello".data, "nope.bin".data] : List Str),
      partPattern "nope.bin".data e = none) ∧
    combine_file (fun _ => none) ["hello".data, "nope.bin".data]
      "nope.bin".data = (none, some 1) :=
  ⟨by decide, combine_no_parts _ _ _ (by decide)⟩

/-- C3: with an existing file of size `L` and `max_size = s ≥ 1` (and no
parts count), `split_file` succeeds and creates exactly `ceil(L/s)` part
files, each of at most `s` bytes, whose sizes sum to `L`. -/
theorem maxsize_strategy_sizes (fs : Str → Option Bytes) (filename : Str)
    (data : Bytes) (s : Nat) (hfile : fs filename = some data) (hs : 0 < s) :
    (split_file fs filename (some s) none).2 = none ∧
    (split_file fs filename (some s) none).1.length = ceilDiv data.length s ∧
    (∀ w ∈ (split_file fs filename (some s) none).1, w.2.length ≤ s) ∧
    ((split_file fs filename (some s) none).1.map (fun w => w.2.length)).sum =
      data.length := by
  obtain ⟨m, rfl⟩ : ∃ m, s = m + 1 := ⟨s - 1, by omega⟩
  have hfit : data.length ≤ ceilDiv data.length (m + 1) * (m + 1) :=
    le_ceilDiv_mul _ _ (Nat.succ_pos m)
  simp only [split_file, hfile]
  refine ⟨trivial, ?_, ?_, ?_⟩
  · rw [splitLoop_eq]; simp
  · intro w hw
    rw [splitLoop_eq, List.mem_map] at hw
    obtain ⟨j, _, rfl⟩ := hw
    exact List.length_take_le _ _
  · rw [splitLoop_eq, List.map_map]
    have hcomp : ((fun w : Str × Bytes => w.2.length) ∘
        fun j => (partName filename (0 + j + 1),
          (data.drop (j * (m + 1))).take (m + 1))) =
        fun j => ((data.drop (j * (m + 1))).take (m + 1)).length := rfl
    rw [hcomp]
    exact sum_chunk_lengths data (m + 1) (ceilDiv data.length (m + 1)) hfit

theorem maxsize_strategy_sizes_witness :
    ((fun name : Str => if name = ['g'] then some ([7, 8, 9] : Bytes) else none)
        ['g'] = some [7, 8, 9]) ∧ 0 < 2 ∧
    ((split_file
        (fun name : Str => if name = ['g'] then some ([7, 8, 9] : Bytes) else none)
        ['g'] (some 2) none).2 = none ∧
      (split_file
        (fun name : Str => if name = ['g'] then some ([7, 8, 9] : Bytes) else none)
        ['g'] (some 2) none).1.length = ceilDiv ([7, 8, 9] : Bytes).length 2 ∧
      (∀ w ∈ (split_file
        (fun name : Str => if name = ['g'] then some ([7, 8, 9] : Bytes) else none)
        ['g'] (some 2) none).1, w.2.length ≤ 2) ∧
      ((split_file
        (fun name : Str => if name = ['g'] then some ([7, 8, 9] : Bytes) else none)
        ['g'] (some 2) none).1.map (fun w => w.2.length)).sum =
        ([7, 8, 9] : Bytes).length) :=
  ⟨by decide, by decide,
    maxsize_strategy_sizes _ _ [7, 8, 9] 2 (by decide) (by decide)⟩

/-- C2 (amended): with an existing file of size `L` and `parts = n ≥ 1`,
`split_file` succeeds and creates exactly `n` part files whose sizes sum
to `L`; part `j` (0-based) has size `min (ceil(L/n)) (L - j*ceil(L/n))` —
every part is of size `ceil(L/n)` until the file is exhausted, after which
the remaining parts (the last ones) are shorter or empty.  The original
claim's stronger form — all parts but possibly the last equal `ceil(L/n)`
and the last is empty only for an empty file — fails, e.g. at `L=5, n=4`. -/
theorem parts_strategy_sizes (fs : Str → Option Bytes) (filename : Str)
    (data : Bytes) (max_size : Option Nat) (n : Nat)
    (hfile : fs filename = some data) (hn : 0 < n) :
    (split_file fs filename max_size (some n)).2 = none ∧
    (split_file fs filename max_size (some n)).1.length = n ∧
    (split_file fs filename max_size (some n)).1.map (fun w => w.2.length) =
      (List.range n).map
        (fun j =>
          min (ceilDiv data.length n) (data.length - j * ceilDiv data.length n)) ∧
    ((split_file fs filename max_size (some n)).1.map (fun w => w.2.length)).sum =
      data.length := by
  obtain ⟨p, rfl⟩ : ∃ p, n = p + 1 := ⟨n - 1, by omega⟩
  have hfit : data.length ≤ (p + 1) * ceilDiv data.length (p + 1) := by
    rw [Nat.mul_comm]
    exact le_ceilDiv_mul data.length (p + 1) (Nat.succ_pos p)
  simp only [split_file, hfile]
  refine ⟨trivial, ?_, ?_, ?_⟩
  · rw [splitLoop_eq]; simp
  · rw [splitLoop_eq, List.map_map]
    refine List.map_congr_left (fun j _ => ?_)
    show ((data.drop (j * ceilDiv data.length (p + 1))).take
        (ceilDiv data.length (p + 1))).length = _
    rw [List.length_take, List.length_drop]
  · rw [splitLoop_eq, List.map_map]
    have hcomp : ((fun w : Str × Bytes => w.2.length) ∘
        fun j => (partName filename (0 + j + 1),
          (data.drop (j * ceilDiv data.length (p + 1))).take
            (ceilDiv data.length (p + 1)))) =
        fun j => ((data.drop (j * ceilDiv data.length (p + 1))).take
          (ceilDiv data.length (p + 1))).length := rfl
    rw [hcomp]
    exact sum_chunk_lengths data (ceilDiv data.length (p + 1)) (p + 1) hfit

theorem parts_strategy_sizes_witness :
    ((fun name : Str => if name = ['h'] then some ([3, 1, 4] : Bytes) else none)
        ['h'] = some [3, 1, 4]) ∧ 0 < 2 ∧
    ((split_file
        (fun name : Str => if name = ['h'] then some ([3, 1, 4] : Bytes) else none)
        ['h'] none (some 2)).2 = none ∧
      (split_file
        (fun name : Str => if name = ['h'] then some ([3, 1, 4] : Bytes) else none)
        ['h'] none (some 2)).1.length = 2 ∧
      (split_file
        (fun name : Str => if name = ['h'] then some ([3, 1, 4] : Bytes) else none)
        ['h'] none (some 2)).1.map (fun w => w.2.length) =
        (List.range 2).map
          (fun j =>
            min (ceilDiv ([3, 1, 4] : Bytes).length 2)
              (([3, 1, 4] : Bytes).length -
                j * ceilDiv ([3, 1, 4] : Bytes).length 2)) ∧
      ((split_file
        (fun name : Str => if name = ['h'] then some ([3, 1, 4] : Bytes) else none)
        ['h'] none (some 2)).1.map (fun w => w.2.length)).sum =
        ([3, 1, 4] : Bytes).length) :=
  ⟨by decide, by decide,
    parts_strategy_sizes _ _ [3, 1, 4] none 2 (by decide) (by decide)⟩

/-- C2 counterexample: splitting a 5-byte file with `parts = 4` gives part
sizes `[2, 2, 1, 0]` with `ceil(5/4) = 2`: the third part is not the last
yet has size `1 ≠ 2`, and the final part is empty although the file is
not.  This refutes the claim that every part except possibly the last has
size exactly `ceil(L/n)` and that the final part is nonempty for `L ≠ 0`. -/
theorem parts_strategy_claim_fails :
    ceilDiv 5 4 = 2 ∧
    (split_file
        (fun name : Str => if name = ['f'] then some ([0, 1, 2, 3, 4] : Bytes) else none)
        ['f'] none (some 4)).2 = none ∧
    (split_file
        (fun name : Str => if name = ['f'] then some ([0, 1, 2, 3, 4] : Bytes) else none)
        ['f'] none (some 4)).1.map (fun w => w.2.length) = [2, 2, 1, 0] ∧
    ([2, 2, 1, 0] : List Nat).getD 2 0 ≠ ceilDiv 5 4 ∧
    ([2, 2, 1, 0] : List Nat).getLast? = some 0 ∧
    ([0, 1, 2, 3, 4] : Bytes).length ≠ 0 := by decide

/-- C1 (amended): splitting an existing file and then combining in a
directory holding exactly the written parts reproduces the file's
contents byte-for-byte in the output file and exits 0, for every
`parts = n ≥ 1` strategy, and for every `max_size = s ≥ 1` strategy
provided the file is nonempty.  (The nonemptiness proviso is forced:
with `max_size` on an empty file the part count `ceil(0/s)` is `0`, so
no part files are written and the subsequent combine finds no parts and
fails — see the counterexample.) -/
theorem roundtrip_of_valid_strategy (fs : Str → Option Bytes) (filename : Str)
    (data : Bytes) (max_size parts : Option Nat)
    (hfile : fs filename = some data)
    (hstrat : (∃ n, 0 < n ∧ parts = some n) ∨
      (parts = none ∧ (∃ s, 0 < s ∧ max_size = some s) ∧ data ≠ [])) :
    (split_file fs filename max_size parts).2 = none ∧
    combine_file (fsOfWrites (split_file fs filename max_size parts).1)
      ((split_file fs filename max_size parts).1.map (fun w => w.1)) filename =
      (some data, none) := by
  rcases hstrat with ⟨n, hn, rfl⟩ | ⟨rfl, ⟨s, hs, rfl⟩, hdata⟩
  · obtain ⟨p, rfl⟩ : ∃ p, n = p + 1 := ⟨n - 1, by omega⟩
    have hfit : data.length ≤ (p + 1) * ceilDiv data.length (p + 1) := by
      rw [Nat.mul_comm]
      exact le_ceilDiv_mul data.length (p + 1) (Nat.succ_pos p)
    simp only [split_file, hfile]
    exact ⟨trivial, split_combine_core filename data _ _ (Nat.succ_pos p) hfit⟩
  · obtain ⟨m, rfl⟩ : ∃ m, s = m + 1 := ⟨s - 1, by omega⟩
    have hpos : 0 < data.length := List.length_pos.mpr hdata
    simp only [split_file, hfile]
    exact ⟨trivial,
      split_combine_core filename data (m + 1) (ceilDiv data.length (m + 1))
        (ceilDiv_pos hpos (Nat.succ_pos m))
        (le_ceilDiv_mul data.length (m + 1) (Nat.succ_pos m))⟩

theorem roundtrip_of_valid_strategy_witness :
    ((fun name : Str => if name = ['f'] then some ([3, 1, 4] : Bytes) else none)
        ['f'] = some [3, 1, 4]) ∧
    ((split_file
        (fun name : Str => if name = ['f'] then some ([3, 1, 4] : Bytes) else none)
        ['f'] none (some 2)).2 = none ∧
      combine_file
        (fsOfWrites (split_file
          (fun name : Str => if name = ['f'] then some ([3, 1, 4] : Bytes) else none)
          ['f'] none (some 2)).1)
        ((split_file
          (fun name : Str => if name = ['f'] then some ([3, 1, 4] : Bytes) else none)
          ['f'] none (some 2)).1.map (fun w => w.1)) ['f'] =
        (some [3, 1, 4], none)) :=
  ⟨by decide,
    roundtrip_of_valid_strategy _ _ _ _ _ (by decide)
      (Or.inl ⟨2, by decide, rfl⟩)⟩

/-- C1 counterexample: for the empty file and the valid strategy
`max_size = 1`, the split succeeds but writes no part files
(`parts = ceil(0/1) = 0`), and combining then exits 1 without creating
the output file — the round trip does not reproduce the file. -/
theorem roundtrip_empty_maxsize_fails :
    split_file
        (fun name : Str => if name = ['f'] then some ([] : Bytes) else none)
        ['f'] (some 1) none = ([], none) ∧
    combine_file
        (fsOfWrites (split_file
          (fun name : Str => if name = ['f'] then some ([] : Bytes) else none)
          ['f'] (some 1) none).1)
        ((split_file
          (fun name : Str => if name = ['f'] then some ([] : Bytes) else none)
          ['f'] (some 1) none).1.map (fun w => w.1)) ['f'] = (none, some 1) ∧
    (combine_file
        (fsOfWrites (split_file
          (fun name : Str => if name = ['f'] then some ([] : Bytes) else none)
          ['f'] (some 1) none).1)
        ((split_file
          (fun name : Str => if name = ['f'] then some ([] : Bytes) else none)
          ['f'] (some 1) none).1.map (fun w => w.1)) ['f']).1 ≠
      some ([] : Bytes) := by decide

/-- C4: the list `combine_file` concatenates is always sorted ascending by
the parsed numeric index (for every directory listing and base name), and
on the concrete parts 1, 2, 9, 10 — where lexicographic filename order
would give 1, 10, 2, 9 — the output is the parts' contents in numeric
order 1, 2, 9, 10. -/
theorem combine_numeric_order :
    (∀ (entries : List Str) (base : Str),
      List.Pairwise (fun a b : Nat × Str => a.1 ≤ b.1)
        (List.insertionSort pairLe (combineMatches entries base))) ∧
    combine_file
        (fun name : Str =>
          if name = "f.part1".data then some ([1] : Bytes)
          else if name = "f.part2".data then some ([2] : Bytes)
          else if name = "f.part9".data then some ([9] : Bytes)
          else if name = "f.part10".data then some ([10] : Bytes)
          else none)
        ["f.part10".data, "f.part2".data, "f.part9".data, "f.part1".data]
        ['f'] = (some [1, 2, 9, 10], none) := by
  constructor
  · intro entries base
    exact List.Pairwise.imp
      (fun hab => hab.elim Nat.le_of_lt (fun h => Nat.le_of_eq h.1))
      (List.sorted_insertionSort pairLe _)
  · decide

/-- C8: the documented size strings parse to the documented byte counts;
`K`, `M`, `G` scale by powers of 1024 and are accepted case-insensitively,
a bare integer is taken as a byte count, and a fractional literal is
scaled and then truncated (`1.5M` gives `floor(1.5 * 1024^2) = 1572864`). -/
theorem parse_size_values :
    parse_size "10M".data = some (10 * 1024 * 1024) ∧
    parse_size "512K".data = some (512 * 1024) ∧
    parse_size "1G".data = some (1024 ^ 3) ∧
    parse_size "100".data = some 100 ∧
    parse_size "1.5M".data = some (15 * 1024 * 1024 / 10) ∧
    15 * 1024 * 1024 / 10 = 1572864 ∧
    parse_size "10m".data = parse_size "10M".data ∧
    parse_size "512k".data = parse_size "512K".data ∧
    parse_size "1g".data = parse_size "1G".data ∧
    parse_size "1.5m".data = parse_size "1.5M".data := by decide

/-- C10: the output of `combine_file` does not depend on the order in
which `os.listdir` returns the directory entries: listings that are
permutations of each other produce identical results, because the
matches are sorted by the `(numeric index, filename)` pair — a total
order — before concatenation. -/
theorem combine_deterministic (fs : Str → Option Bytes) (base : Str)
    {e₁ e₂ : List Str} (hperm : e₁.Perm e₂) :
    combine_file fs e₁ base = combine_file fs e₂ base := by
  have hm : (combineMatches e₁ base).Perm (combineMatches e₂ base) :=
    hperm.filterMap _
  by_cases hnil : combineMatches e₁ base = []
  · have hnil2 : combineMatches e₂ base = [] := by
      rw [hnil] at hm
      exact hm.symm.eq_nil
    simp [combine_file, hnil, hnil2]
  · have hnil2 : combineMatches e₂ base ≠ [] := by
      intro h2
      rw [h2] at hm
      exact hnil hm.eq_nil
    have hsort : List.insertionSort pairLe (combineMatches e₁ base) =
        List.insertionSort pairLe (combineMatches e₂ base) :=
      List.eq_of_perm_of_sorted
        ((List.perm_insertionSort pairLe _).trans
          (hm.trans (List.perm_insertionSort pairLe _).symm))
        (List.sorted_insertionSort pairLe _)
        (List.sorted_insertionSort pairLe _)
    simp only [combine_file]
    rw [if_neg hnil, if_neg hnil2, hsort]

theorem combine_deterministic_witness :
    (["f.part2".data, "f.part1".data] : List Str).Perm
      ["f.part1".data, "f.part2".data] ∧
    combine_file (fun _ => some [5]) ["f.part2".data, "f.part1".data] ['f'] =
      combine_file (fun _ => some [5]) ["f.part1".data, "f.part2".data] ['f'] :=
  ⟨by decide, combine_deterministic _ _ (by decide)⟩
